import Mathlib

/-!
venom: result model, case/step runner, loader, aggregator and admission gate.

Shallow embedding of `process.go`, `xunit.go` and the `parallel` handling of
`cli/venom/run/cmd.go`.

Modelling conventions
* Go `int` is 64 bits wide and wraps around. The skipped counters take values
  a suite document declares (`skipped:` of a suite or of a case), so every
  addition into `ts.Skipped`, `tr.TotalSkipped` and `tr.Total` goes through
  `wrapInt`. `Failures`, `Errors`, `TotalOK` and `TotalKO` are sums of the
  lengths of slices that are all held in memory at once; they cannot reach
  `2^63` and are computed in `Int`.
* `len(xs)` is `List.length`, cast to `Int` where it meets a counter.
* A step document (`map[string]interface{}`) and an executor result are never
  inspected by the runner; both are key/value lists with the values rendered
  as text.
* Calls that leave the runner (`getExecutor`, `Run`, `applyChecks`, progress
  bar increments) are recorded, in order, in a trace of `Event`s, and executors
  thread an explicit world state `W`.
* Logging, timing and the cosmetic progress output are left out.
-/

namespace Venom

/-! ## Result model (`xunit.go`) -/

/-- `Failure` of `xunit.go` (`Typ` is the source's field `Type`, a reserved
word here). -/
structure Failure where
  Value : String := ""
  Typ : String := ""
  Message : String := ""
deriving DecidableEq, Repr

/-- `TestStep` of `xunit.go`: an open key/value document. -/
abbrev TestStep := List (String × String)

/-- `TestCase` of `xunit.go` (the fields the runner and the loader touch,
plus `Status` and `Time`, which they leave alone). -/
structure TestCase where
  Errors : List Failure := []
  Failures : List Failure := []
  Name : String := ""
  Skipped : Int := 0
  Status : String := ""
  Time : String := ""
  TestSteps : List TestStep := []
deriving DecidableEq, Repr

/-- `TestSuite` of `xunit.go`. -/
structure TestSuite where
  Disabled : Int := 0
  Errors : Int := 0
  Failures : Int := 0
  Name : String := ""
  Package : String := ""
  Skipped : Int := 0
  Total : Int := 0
  TestCases : List TestCase := []
deriving DecidableEq, Repr

/-- `Tests` of `xunit.go`: the aggregate result. -/
structure Tests where
  Total : Int := 0
  TotalOK : Int := 0
  TotalKO : Int := 0
  TotalSkipped : Int := 0
  TestSuites : List TestSuite := []
deriving DecidableEq, Repr

/-! ## Machine integers -/

/-- The largest Go `int`, `2^63 - 1`. -/
def maxInt : Int := 9223372036854775807

/-- The smallest Go `int`, `-2^63`. -/
def minInt : Int := -9223372036854775808

/-- The value a Go `int` holds after an addition whose exact result is `x`:
`x` reduced modulo `2^64` into the range from `minInt` to `maxInt`. -/
def wrapInt (x : Int) : Int :=
  (x + 9223372036854775808) % 18446744073709551616 - 9223372036854775808

/-! ## Aggregator (`process.go`, lines 65-81) -/

/-- One iteration of the `for t := range chanEnd` loop of `Process`. -/
def aggregate (tr : Tests) (t : TestSuite) : Tests :=
  let tss := tr.TestSuites ++ [t]
  let ko := if t.Failures > 0 then tr.TotalKO + t.Failures else tr.TotalKO
  let ok := if t.Failures > 0 then tr.TotalOK
            else tr.TotalOK + ((t.TestCases.length : Int) - t.Failures)
  let sk := if t.Skipped > 0 then wrapInt (tr.TotalSkipped + t.Skipped)
            else tr.TotalSkipped
  { Total := wrapInt (wrapInt (ko + ok) + sk), TotalOK := ok, TotalKO := ko,
    TotalSkipped := sk, TestSuites := tss }

/-- The aggregator run over the suites in the order they reach `chanEnd`,
starting from `tr := Tests{}`. -/
def aggregateAll (done : List TestSuite) : Tests :=
  done.foldl aggregate {}

/-! ## Collaborators of the runner

`getExecutor`, the executors and `applyChecks` live outside `process.go`; the
runner only calls them. -/

/-- `ExecutorResult`: the result document an executor hands back. -/
abbrev ExecutorResult := List (String × String)

/-- `StepAssertions`: the default assertions an executor may expose. -/
abbrev StepAssertions := List String

/-- An executor as `runTestCase` sees it. `Run` receives the log context (of
which the case name is the part that varies), and the step; it may change the
world and returns the result with an optional error text.
`GetDefaultAssertions` is `none` for an executor that does not implement
`executorWithDefaultAssertions`. -/
structure Executor (W : Type) where
  Run : W → String → TestStep → W × ExecutorResult × Option String
  GetDefaultAssertions : Option StepAssertions

/-- What the runner is linked against: the registry lookup `getExecutor`
(the error text on the left when the name is not registered) and the assertion
evaluator behind `applyChecks`. -/
structure Env (W : Type) where
  getExecutor : TestStep → String ⊕ Executor W
  evaluate : ExecutorResult → TestStep → Option StepAssertions → List Failure

/-- Modelled from the spec: `applyChecks` is called by `runTestCase` but its
definition is outside the given sources. Per §4.4 and §6 the evaluator receives the
result, the step and the optional default assertions, and every assertion it
judges unmet is appended as a Failure to the case. -/
def applyChecks {W : Type} (env : Env W) (result : ExecutorResult) (tc : TestCase)
    (step : TestStep) (defaults : Option StepAssertions) : TestCase :=
  { tc with Failures := tc.Failures ++ env.evaluate result step defaults }

/-- Calls leaving the runner, in the order they happen. -/
inductive Event where
  | getExecutor (step : TestStep)
  | run (tcName : String) (step : TestStep)
  | applyChecks (tcName : String) (step : TestStep)
  | increment
deriving DecidableEq, Repr

/-- `DetailsLow`, `DetailsMedium`, `DetailsHigh`. -/
def DetailsLow : String := "low"

/-- State of one `runTestCase` call: the world, the case being filled in and
the trace so far. -/
structure CaseRun (W : Type) where
  world : W
  tc : TestCase
  trace : List Event

/-- Body of the `for _, step := range tc.TestSteps` loop of `runTestCase`
(lines 236-260). The flag is `true` when the body leaves through `break`. -/
def runStep {W : Type} (env : Env W) (detailsLevel : String) (st : CaseRun W)
    (step : TestStep) : CaseRun W × Bool :=
  match env.getExecutor step with
  | .inl err =>
      ({ st with tc := { st.tc with Errors := st.tc.Errors ++ [{ Value := err }] },
                 trace := st.trace ++ [Event.getExecutor step] }, true)
  | .inr t =>
      let r := t.Run st.world st.tc.Name step
      let tc1 : TestCase :=
        match r.2.2 with
        | some e => { st.tc with Failures := st.tc.Failures ++ [{ Value := e }] }
        | none => st.tc
      let tc2 := applyChecks env r.2.1 tc1 step t.GetDefaultAssertions
      let tr := st.trace ++
        [Event.getExecutor step, Event.run st.tc.Name step,
         Event.applyChecks st.tc.Name step] ++
        (if detailsLevel ≠ DetailsLow then [Event.increment] else [])
      ({ world := r.1, tc := tc2, trace := tr }, decide (tc2.Failures.length > 0))

/-- The step loop of `runTestCase`: the steps in order, until one breaks. -/
def runSteps {W : Type} (env : Env W) (detailsLevel : String) :
    List TestStep → CaseRun W → CaseRun W
  | [], st => st
  | step :: rest, st =>
      let r := runStep env detailsLevel st step
      if r.2 then r.1 else runSteps env detailsLevel rest r.1

/-- `runTestCase` (lines 231-263): the case is updated in place; the trace
holds the calls made by this invocation. -/
def runTestCase {W : Type} (env : Env W) (detailsLevel : String) (w : W)
    (tc : TestCase) : CaseRun W :=
  runSteps env detailsLevel tc.TestSteps { world := w, tc := tc, trace := [] }

/-- State of the case loop of `runTestSuite`: the world, the trace, the suite
counters and the cases already written back to `ts.TestCases`. -/
structure SuiteRun (W : Type) where
  world : W
  trace : List Event
  Failures : Int
  Errors : Int
  Skipped : Int
  cases : List TestCase

/-- Body of the `for i, tc := range ts.TestCases` loop of `runTestSuite`
(lines 196-209). -/
def runCase {W : Type} (env : Env W) (detailsLevel : String) (st : SuiteRun W)
    (tc0 : TestCase) : SuiteRun W :=
  let r : CaseRun W :=
    if tc0.Skipped = 0 then runTestCase env detailsLevel st.world tc0
    else { world := st.world, tc := tc0, trace := [] }
  let tc := r.tc
  { world := r.world
    trace := st.trace ++ r.trace
    Failures := if tc.Failures.length > 0 then st.Failures + tc.Failures.length
                else st.Failures
    Errors := if tc.Errors.length > 0 then st.Errors + tc.Errors.length else st.Errors
    Skipped := if tc.Skipped > 0 then wrapInt (st.Skipped + tc.Skipped) else st.Skipped
    cases := st.cases ++ [tc] }

/-- The case loop of `runTestSuite`. -/
def runCases {W : Type} (env : Env W) (detailsLevel : String) :
    List TestCase → SuiteRun W → SuiteRun W
  | [], st => st
  | tc :: rest, st => runCases env detailsLevel rest (runCase env detailsLevel st tc)

/-- Outcome of `runTestSuite`: the world and trace it leaves and the suite as
mutated through the pointer. -/
structure SuiteResult (W : Type) where
  world : W
  trace : List Event
  suite : TestSuite

/-- The loop state `runTestSuite` starts from. -/
def suiteStart {W : Type} (w : W) (ts : TestSuite) : SuiteRun W :=
  { world := w, trace := [], Failures := ts.Failures, Errors := ts.Errors,
    Skipped := ts.Skipped, cases := [] }

/-- `runTestSuite` (lines 186-229). -/
def runTestSuite {W : Type} (env : Env W) (detailsLevel : String) (w : W)
    (ts : TestSuite) : SuiteResult W :=
  let st := runCases env detailsLevel ts.TestCases (suiteStart w ts)
  { world := st.world
    trace := st.trace
    suite := { ts with Failures := st.Failures, Errors := st.Errors,
                       Skipped := st.Skipped, TestCases := st.cases } }

/-! ## Loader (`process.go`, lines 98-118) -/

/-- What `yaml.Unmarshal` can set on a fresh `TestSuite{}`: the fields whose
yaml tag is not `-`. -/
structure SuiteDoc where
  Name : String := ""
  Skipped : Int := 0
  Total : Int := 0
  TestCases : List TestCase := []
deriving DecidableEq, Repr

/-- The `for _, tc := range ts.TestCases` loop at lines 111-117, as far as the
suite is concerned: `ts.Skipped++` for every case with `Skipped == 1`. -/
def countSkipped : List TestCase → Int → Int
  | [], n => n
  | tc :: rest, n => countSkipped rest (if tc.Skipped = 1 then wrapInt (n + 1) else n)

/-- `nSteps` of lines 110-113, which sizes the progress bar. -/
def nSteps (cases : List TestCase) : Nat :=
  (cases.map fun tc => tc.TestSteps.length).sum

/-- The suite a loader task sends on `chanToRun` for file `f` once the
document has been unmarshalled (lines 98-118). -/
def loadSuite (f : String) (doc : SuiteDoc) : TestSuite :=
  { Package := f
    Name := doc.Name ++ " [" ++ f ++ "]"
    Skipped := countSkipped doc.TestCases doc.Skipped
    Total := doc.TestCases.length
    TestCases := doc.TestCases }

/-! ## Path expansion (`process.go`, lines 44-48)

`filepath.Dir` and `filepath.Clean` come from the Go standard library; they are
transcribed here for slash-separated paths without a volume name. -/

/-- The elements of a path between its slashes (empty elements included). -/
def splitSlash : List Char → List (List Char)
  | [] => [[]]
  | c :: cs =>
      if c = '/' then [] :: splitSlash cs
      else
        match splitSlash cs with
        | [] => [[c]]
        | h :: t => (c :: h) :: t

/-- One element handled by `filepath.Clean`; `out` holds the kept elements,
last one first. Empty and `.` elements are dropped; `..` removes the element
before it when there is one to remove, is dropped at the root, and is kept
otherwise. -/
def cleanElem (rooted : Bool) (out : List (List Char)) (e : List Char) :
    List (List Char) :=
  if e = [] ∨ e = ['.'] then out
  else if e = ['.', '.'] then
    match out with
    | top :: rest => if top = ['.', '.'] then e :: out else rest
    | [] => if rooted then [] else [e]
  else e :: out

/-- Elements joined by slashes. -/
def joinSlash : List (List Char) → List Char
  | [] => []
  | [e] => e
  | e :: rest => e ++ '/' :: joinSlash rest

/-- `filepath.Clean` on the characters of a path. -/
def Clean (path : List Char) : List Char :=
  if path = [] then ['.']
  else
    let rooted := decide (path.head? = some '/')
    let kept := ((splitSlash path).foldl (cleanElem rooted) []).reverse
    let out := (if rooted then ['/'] else []) ++ joinSlash kept
    if out = [] then ['.'] else out

/-- The part of a path up to and including its last slash (`path[:i+1]` in
`filepath.Dir`). -/
def upToLastSlash (path : List Char) : List Char :=
  (path.reverse.dropWhile fun c => c ≠ '/').reverse

/-- `filepath.Dir`: all but the last element of the path, cleaned. -/
def Dir (path : String) : String :=
  String.mk (Clean (upToLastSlash path.data))

/-- Lines 44-48 of `Process`: `isDir` is `fileInfo != nil && fileInfo.IsDir()`;
the result is the pattern handed to `filepath.Glob`. -/
def expandPath (isDir : Bool) (path : String) : String :=
  if isDir then Dir path ++ "/*.yml" else path

/-! ## Parallelism (`cmd.go`, lines 62-64; `process.go`, lines 62 and 156-165) -/

/-- The `parallel` value `Cmd.Run` passes to `Process` for the flag value
`parallel`. -/
def cmdParallel (parallel : Int) : Int :=
  if parallel < 0 then 1 else parallel

/-- Where the task of one suite (the goroutine of lines 158-163) stands. -/
inductive Phase where
  /-- Started, has not completed `parallels <- ts`. -/
  | waiting
  /-- Inside `runTestSuite`. -/
  | running
  /-- Back from `runTestSuite`, has not completed `chanEnd <- ts`. -/
  | forwarding
  /-- The suite is sent; the deferred `<-parallels` is still to come. -/
  | releasing
  /-- The task has returned. -/
  | done
deriving DecidableEq, Repr

/-- The scheduler state: how many values sit in the channel `parallels`, and
the phase of every suite task. -/
structure Sched where
  gate : Nat
  tasks : List Phase
deriving DecidableEq, Repr

/-- The moves of the interleaving. `handoff i j` is the rendezvous in which
the send of a waiting task `i` completes together with the receive of the
releasing task `j` (the only way a send completes on an unbuffered channel,
and what happens on a full buffer with a blocked sender). -/
inductive Move where
  | acquire (i : Nat)
  | finish (i : Nat)
  | forward (i : Nat)
  | release (i : Nat)
  | handoff (i j : Nat)
deriving DecidableEq, Repr

/-- One move on a channel of capacity `cap`; `none` when the move is not
enabled. -/
def Sched.step (cap : Nat) (s : Sched) : Move → Option Sched
  | .acquire i =>
      if s.tasks.get? i = some Phase.waiting ∧ s.gate < cap then
        some { gate := s.gate + 1, tasks := s.tasks.set i Phase.running }
      else none
  | .finish i =>
      if s.tasks.get? i = some Phase.running then
        some { s with tasks := s.tasks.set i Phase.forwarding }
      else none
  | .forward i =>
      if s.tasks.get? i = some Phase.forwarding then
        some { s with tasks := s.tasks.set i Phase.releasing }
      else none
  | .release i =>
      if s.tasks.get? i = some Phase.releasing ∧ 0 < s.gate then
        some { gate := s.gate - 1, tasks := s.tasks.set i Phase.done }
      else none
  | .handoff i j =>
      if s.tasks.get? i = some Phase.waiting ∧ s.tasks.get? j = some Phase.releasing then
        some { s with tasks := (s.tasks.set i Phase.running).set j Phase.done }
      else none

/-- A sequence of moves, stopping with `none` at the first one not enabled. -/
def Sched.exec (cap : Nat) : Sched → List Move → Option Sched
  | s, [] => some s
  | s, m :: ms =>
      match Sched.step cap s m with
      | some s1 => Sched.exec cap s1 ms
      | none => none

/-- The state when the tasks of `n` loaded suites have been started. -/
def Sched.init (n : Nat) : Sched :=
  { gate := 0, tasks := List.replicate n Phase.waiting }

/-- Number of suites inside `runTestSuite`. -/
def Sched.running (s : Sched) : Nat :=
  s.tasks.count Phase.running

/-- Whether a task in this phase holds a slot of `parallels`: its send has
completed and its deferred receive has not. -/
def Phase.holding : Phase → Bool
  | .running => true
  | .forwarding => true
  | .releasing => true
  | _ => false

/-- Number of tasks holding a slot. -/
def Sched.holders (s : Sched) : Nat :=
  s.tasks.countP Phase.holding

/-! ## Vocabulary for the step loop -/

/-- Whether the step loop of `runTestCase` leaves through `break` while it
runs these steps from this state. -/
def breaks {W : Type} (env : Env W) (detailsLevel : String) :
    List TestStep → CaseRun W → Bool
  | [], _ => false
  | step :: rest, st =>
      let r := runStep env detailsLevel st step
      if r.2 then true else breaks env detailsLevel rest r.1

/-- A step fails in this state: its executor cannot be resolved, or its run
returns an error, or the evaluator reports an unmet assertion for it. -/
def stepFails {W : Type} (env : Env W) (st : CaseRun W) (step : TestStep) : Bool :=
  match env.getExecutor step with
  | .inl _ => true
  | .inr t =>
      let r := t.Run st.world st.tc.Name step
      r.2.2.isSome || !(env.evaluate r.2.1 step t.GetDefaultAssertions).isEmpty

/-- The trace holds a `getExecutor` call on a step whose executor is not
registered. -/
def unresolvedIn {W : Type} (env : Env W) (tr : List Event) : Prop :=
  ∃ step err, env.getExecutor step = Sum.inl err ∧ Event.getExecutor step ∈ tr

/-- Events that are a `getExecutor` call. -/
def Event.isGetExecutor : Event → Bool
  | .getExecutor _ => true
  | _ => false

/-- Events that are a `Run` call. -/
def Event.isRun : Event → Bool
  | .run _ _ => true
  | _ => false

/-- Events that are an `applyChecks` call. -/
def Event.isApplyChecks : Event → Bool
  | .applyChecks _ _ => true
  | _ => false

/-! ## Sample data -/

/-- A sample executor on a world that counts the runs: the run fails when the
step says `script: false`. -/
def demoExec : Executor Nat :=
  { Run := fun w _ step =>
      (w + 1, [("code", "0")],
        if step.lookup "script" = some "false" then some "exit status 1" else none)
    GetDefaultAssertions := none }

/-- A sample environment: only the executor named `exec` is registered, and
the evaluator reports one unmet assertion for a step that says `assert: no`. -/
def demoEnv : Env Nat :=
  { getExecutor := fun step =>
      if step.lookup "type" = some "exec" then Sum.inr demoExec
      else Sum.inl "executor not registered"
    evaluate := fun _ step _ =>
      if step.lookup "assert" = some "no" then [{ Value := "assertion not met" }] else [] }

/-- A step that passes under `demoEnv`. -/
def okStep : TestStep := [("type", "exec"), ("script", "true")]

/-- A step whose run returns an error under `demoEnv`. -/
def failStep : TestStep := [("type", "exec"), ("script", "false")]

/-- A step whose executor is not registered under `demoEnv`. -/
def unknownStep : TestStep := [("type", "ftp")]

/-- A step with an unmet assertion under `demoEnv`. -/
def unmetStep : TestStep := [("type", "exec"), ("assert", "no")]

/-- Scenario A: suite alpha, two cases of one passing step each. -/
def alphaDoc : SuiteDoc :=
  { Name := "alpha",
    TestCases := [{ Name := "a1", TestSteps := [okStep] },
                  { Name := "a2", TestSteps := [okStep] }] }

/-- The case of scenario B: three steps, the run of the second one fails. -/
def betaCase : TestCase :=
  { Name := "b1", TestSteps := [okStep, failStep, okStep] }

/-- Scenario B: suite beta, made of `betaCase`. -/
def betaDoc : SuiteDoc :=
  { Name := "beta", TestCases := [betaCase] }

/-- Suite alpha, loaded and run. -/
def alphaDone : TestSuite :=
  (runTestSuite demoEnv DetailsLow 0 (loadSuite "alpha.yml" alphaDoc)).suite

/-- Suite beta, loaded and run. -/
def betaDone : TestSuite :=
  (runTestSuite demoEnv DetailsLow 0 (loadSuite "beta.yml" betaDoc)).suite

/-- A case as a document can declare it: one failure already recorded, and a
single step whose run fails. -/
def declaredCase : TestCase :=
  { Name := "d1", Failures := [{ Value := "declared" }], TestSteps := [failStep] }

/-- A suite document without cases that declares the largest `skipped`. -/
def maxSkippedDoc : SuiteDoc :=
  { Name := "a", Skipped := 9223372036854775807 }

/-- A suite document without cases that declares `skipped: 1`. -/
def oneSkippedDoc : SuiteDoc :=
  { Name := "b", Skipped := 1 }

/-- A suite document with one case marked skipped. -/
def skippedDoc : SuiteDoc :=
  { Name := "skip", TestCases := [{ Name := "s1", Skipped := 1, TestSteps := [okStep] }] }

/-- A suite document whose first case stops on an unregistered executor. -/
def erroredDoc : SuiteDoc :=
  { Name := "errored",
    TestCases := [{ Name := "e1", TestSteps := [okStep, unknownStep, okStep] },
                  { Name := "e2", TestSteps := [okStep] }] }

/-! # Theorems -/

/-! ## The aggregator -/

theorem aggregateAll_snoc (done : List TestSuite) (t : TestSuite) :
    aggregateAll (done ++ [t]) = aggregate (aggregateAll done) t := by
  simp [aggregateAll, List.foldl_append]

theorem wrapInt_of_range (x : Int) (hlo : minInt ≤ x) (hhi : x ≤ maxInt) :
    wrapInt x = x := by
  unfold minInt at hlo
  unfold maxInt at hhi
  unfold wrapInt
  omega

theorem wrapInt_range (x : Int) : minInt ≤ wrapInt x ∧ wrapInt x ≤ maxInt := by
  unfold minInt maxInt wrapInt
  omega

theorem wrapInt_wrapInt_add (x y : Int) : wrapInt (wrapInt x + y) = wrapInt (x + y) := by
  unfold wrapInt
  omega

theorem aggregate_skipped_range (a : Tests) (t : TestSuite)
    (h : minInt ≤ a.TotalSkipped ∧ a.TotalSkipped ≤ maxInt) :
    minInt ≤ (aggregate a t).TotalSkipped ∧ (aggregate a t).TotalSkipped ≤ maxInt := by
  simp only [aggregate]
  split
  · exact wrapInt_range _
  · exact h

theorem foldl_aggregate_skipped_range (done : List TestSuite) (a : Tests)
    (h : minInt ≤ a.TotalSkipped ∧ a.TotalSkipped ≤ maxInt) :
    minInt ≤ (done.foldl aggregate a).TotalSkipped ∧
    (done.foldl aggregate a).TotalSkipped ≤ maxInt := by
  induction done generalizing a with
  | nil => exact h
  | cons t rest ih => exact ih _ (aggregate_skipped_range a t h)

/-- The skipped total of the aggregator is always a Go `int`. -/
theorem aggregateAll_skipped_range (done : List TestSuite) :
    minInt ≤ (aggregateAll done).TotalSkipped ∧ (aggregateAll done).TotalSkipped ≤ maxInt :=
  foldl_aggregate_skipped_range done {} ⟨by decide, by decide⟩

/-- C1, as amended. Folding a completed suite `t` with non-negative counters
after any sequence `done` of suites: with `failures == 0` it adds its number
of cases to ok and nothing to ko; with `failures == f > 0` it adds `f` to ko
and nothing to ok; it adds its skipped count to skipped as long as the new
skipped sum does not exceed the largest `int`; afterwards `total` is
`ok + ko + skipped` in `int` arithmetic, hence equal to that sum whenever the
sum is in the `int` range; the suite is appended to the list. The empty
aggregate is all zero, and alpha (2 cases, 0 failures) and beta (1 case, 1
failure) folded in either order give ok 2, ko 1, skipped 0, total 3. -/
theorem aggregate_contribution (done : List TestSuite) (t : TestSuite)
    (hS : 0 ≤ t.Skipped)
    (hfit : (aggregateAll done).TotalSkipped + t.Skipped ≤ maxInt) :
    (t.Failures = 0 →
      (aggregateAll (done ++ [t])).TotalOK
          = (aggregateAll done).TotalOK + (t.TestCases.length : Int) ∧
      (aggregateAll (done ++ [t])).TotalKO = (aggregateAll done).TotalKO) ∧
    (0 < t.Failures →
      (aggregateAll (done ++ [t])).TotalKO = (aggregateAll done).TotalKO + t.Failures ∧
      (aggregateAll (done ++ [t])).TotalOK = (aggregateAll done).TotalOK) ∧
    (aggregateAll (done ++ [t])).TotalSkipped
        = (aggregateAll done).TotalSkipped + t.Skipped ∧
    (aggregateAll (done ++ [t])).Total
        = wrapInt ((aggregateAll (done ++ [t])).TotalOK
            + (aggregateAll (done ++ [t])).TotalKO
            + (aggregateAll (done ++ [t])).TotalSkipped) ∧
    (minInt ≤ (aggregateAll (done ++ [t])).TotalOK + (aggregateAll (done ++ [t])).TotalKO
          + (aggregateAll (done ++ [t])).TotalSkipped →
      (aggregateAll (done ++ [t])).TotalOK + (aggregateAll (done ++ [t])).TotalKO
          + (aggregateAll (done ++ [t])).TotalSkipped ≤ maxInt →
      (aggregateAll (done ++ [t])).Total
        = (aggregateAll (done ++ [t])).TotalOK + (aggregateAll (done ++ [t])).TotalKO
          + (aggregateAll (done ++ [t])).TotalSkipped) ∧
    (aggregateAll (done ++ [t])).TestSuites = (aggregateAll done).TestSuites ++ [t] ∧
    (aggregateAll []).Total = 0 ∧ (aggregateAll []).TotalOK = 0 ∧
    (aggregateAll []).TotalKO = 0 ∧ (aggregateAll []).TotalSkipped = 0 ∧
    (∀ alpha beta : TestSuite,
      alpha.TestCases.length = 2 → alpha.Failures = 0 → alpha.Skipped = 0 →
      beta.TestCases.length = 1 → beta.Failures = 1 → beta.Skipped = 0 →
      ∀ r ∈ [aggregateAll [alpha, beta], aggregateAll [beta, alpha]],
        r.TotalOK = 2 ∧ r.TotalKO = 1 ∧ r.TotalSkipped = 0 ∧ r.Total = 3) := by
  have hrange := aggregateAll_skipped_range done
  have htotal : (aggregate (aggregateAll done) t).Total
      = wrapInt ((aggregate (aggregateAll done) t).TotalOK
          + (aggregate (aggregateAll done) t).TotalKO
          + (aggregate (aggregateAll done) t).TotalSkipped) := by
    simp only [aggregate]
    rw [wrapInt_wrapInt_add]
    congr 1
    ring
  rw [aggregateAll_snoc]
  refine ⟨?_, ?_, ?_, htotal, ?_, ?_, rfl, rfl, rfl, rfl, ?_⟩
  · intro h0
    simp [aggregate, h0]
  · intro hpos
    simp [aggregate, hpos]
  · rcases eq_or_lt_of_le hS with h | h
    · simp [aggregate, ← h]
    · simp only [aggregate, gt_iff_lt, h, if_true]
      exact wrapInt_of_range _ (by omega) hfit
  · intro hlo hhi
    rw [htotal]
    exact wrapInt_of_range _ hlo hhi
  · simp [aggregate]
  · intro alpha beta ha1 ha2 ha3 hb1 hb2 hb3 r hr
    simp only [List.mem_cons, List.mem_singleton, List.not_mem_nil, or_false] at hr
    rcases hr with rfl | rfl <;>
      simp [aggregateAll, aggregate, ha1, ha2, ha3, hb1, hb2, hb3] <;> decide

/-- C1 at `done = [alphaDone]`, `t = betaDone`: beta adds its one failure to ko
and nothing to ok. -/
theorem aggregate_contribution_witness :
    (0 ≤ betaDone.Skipped ∧
      (aggregateAll [alphaDone]).TotalSkipped + betaDone.Skipped ≤ maxInt) ∧
    ((aggregateAll ([alphaDone] ++ [betaDone])).TotalKO
        = (aggregateAll [alphaDone]).TotalKO + betaDone.Failures ∧
      (aggregateAll ([alphaDone] ++ [betaDone])).TotalOK
        = (aggregateAll [alphaDone]).TotalOK) :=
  ⟨⟨by decide, by decide⟩,
   (aggregate_contribution [alphaDone] betaDone (by decide) (by decide)).2.1 (by decide)⟩

/-- C1 as stated fails on two loaded and run suites without cases, the first
declaring `skipped: 9223372036854775807` and the second `skipped: 1`: all
their counters are non-negative, yet folding the second one takes skipped from
`2^63 - 1` to `-2^63` instead of adding 1, and total is `-2^63` as well. -/
theorem aggregate_skipped_wraps :
    0 ≤ (runTestSuite demoEnv DetailsLow 0 (loadSuite "a.yml" maxSkippedDoc)).suite.Failures ∧
    0 ≤ (runTestSuite demoEnv DetailsLow 0 (loadSuite "a.yml" maxSkippedDoc)).suite.Skipped ∧
    0 ≤ (runTestSuite demoEnv DetailsLow 0 (loadSuite "b.yml" oneSkippedDoc)).suite.Failures ∧
    (runTestSuite demoEnv DetailsLow 0 (loadSuite "b.yml" oneSkippedDoc)).suite.Skipped = 1 ∧
    (aggregateAll
      [(runTestSuite demoEnv DetailsLow 0 (loadSuite "a.yml" maxSkippedDoc)).suite]).TotalSkipped
      = 9223372036854775807 ∧
    (aggregateAll
      [(runTestSuite demoEnv DetailsLow 0 (loadSuite "a.yml" maxSkippedDoc)).suite,
       (runTestSuite demoEnv DetailsLow 0 (loadSuite "b.yml" oneSkippedDoc)).suite]).TotalSkipped
      = -9223372036854775808 ∧
    (aggregateAll
      [(runTestSuite demoEnv DetailsLow 0 (loadSuite "a.yml" maxSkippedDoc)).suite,
       (runTestSuite demoEnv DetailsLow 0 (loadSuite "b.yml" oneSkippedDoc)).suite]).TotalSkipped
      ≠ (aggregateAll
          [(runTestSuite demoEnv DetailsLow 0
              (loadSuite "a.yml" maxSkippedDoc)).suite]).TotalSkipped
        + (runTestSuite demoEnv DetailsLow 0 (loadSuite "b.yml" oneSkippedDoc)).suite.Skipped ∧
    (aggregateAll
      [(runTestSuite demoEnv DetailsLow 0 (loadSuite "a.yml" maxSkippedDoc)).suite,
       (runTestSuite demoEnv DetailsLow 0 (loadSuite "b.yml" oneSkippedDoc)).suite]).Total
      = -9223372036854775808 := by
  decide

/-! ## The loader and the suite runner: `Total` -/

theorem runCases_cases_length {W : Type} (env : Env W) (lvl : String)
    (cs : List TestCase) (st : SuiteRun W) :
    (runCases env lvl cs st).cases.length = st.cases.length + cs.length := by
  induction cs generalizing st with
  | nil => simp [runCases]
  | cons c rest ih =>
      simp only [runCases, ih, List.length_cons]
      simp [runCase]
      omega

/-- C6. After loading, `suite.total == len(suite.cases)` whatever total the
document declares; `runTestSuite` changes neither `Total` nor the number of
cases, so the equality also holds after the run. -/
theorem total_eq_len_cases {W : Type} (env : Env W) (lvl : String) (w : W)
    (f : String) (doc : SuiteDoc) :
    (loadSuite f doc).Total = ((loadSuite f doc).TestCases.length : Int) ∧
    (loadSuite f doc).TestCases.length = doc.TestCases.length ∧
    (runTestSuite env lvl w (loadSuite f doc)).suite.Total
      = ((runTestSuite env lvl w (loadSuite f doc)).suite.TestCases.length : Int) ∧
    (runTestSuite env lvl w (loadSuite f doc)).suite.Total = (loadSuite f doc).Total ∧
    (runTestSuite env lvl w (loadSuite f doc)).suite.TestCases.length
      = (loadSuite f doc).TestCases.length := by
  have hlen : (runTestSuite env lvl w (loadSuite f doc)).suite.TestCases.length
      = (loadSuite f doc).TestCases.length := by
    simp [runTestSuite, runCases_cases_length, suiteStart]
  refine ⟨rfl, rfl, ?_, rfl, hlen⟩
  rw [hlen]
  rfl

/-! ## Directory expansion -/

/-- C7. For the directory `a/b`, `Process` computes the pattern `a/*.yml`,
the yml files of the parent directory, and not `a/b/*.yml`; with a trailing
slash the directory itself is kept. -/
theorem expandPath_dir_parent :
    expandPath true "a/b" = "a/*.yml" ∧ expandPath true "a/b" ≠ "a/b/*.yml" ∧
    expandPath true "a/b/" = "a/b/*.yml" := by
  decide

/-! ## Parallelism -/

theorem getElem?_replicate_waiting (n i : Nat) (p : Phase) (hp : p ≠ Phase.waiting) :
    ¬ (List.replicate n Phase.waiting)[i]? = some p := by
  intro h
  have hmem : p ∈ List.replicate n Phase.waiting := List.getElem?_mem h
  exact hp (List.eq_of_mem_replicate hmem)

/-- C8. For the flag value 0, `Cmd.Run` leaves `parallel` at 0: the gate
`make(chan TestSuite, 0)` has no capacity, and no move of any suite task is
ever enabled, so no suite starts. -/
theorem cmdParallel_zero :
    cmdParallel 0 = 0 ∧ ¬ (1 ≤ cmdParallel 0) ∧
    ∀ (n : Nat) (m : Move), Sched.step (cmdParallel 0).toNat (Sched.init n) m = none := by
  refine ⟨by decide, by decide, ?_⟩
  intro n m
  have h0 : (cmdParallel 0).toNat = 0 := by decide
  rw [h0]
  cases m with
  | acquire i => simp [Sched.step]
  | finish i =>
      simp [Sched.step, Sched.init, getElem?_replicate_waiting n i Phase.running (by decide)]
  | forward i =>
      simp [Sched.step, Sched.init, getElem?_replicate_waiting n i Phase.forwarding (by decide)]
  | release i => simp [Sched.step, Sched.init]
  | handoff i j =>
      simp [Sched.step, Sched.init, getElem?_replicate_waiting n j Phase.releasing (by decide)]

theorem countP_set_of_getElem? {α : Type} (f : α → Bool) (l : List α) (i : Nat) (a b : α)
    (h : l[i]? = some a) :
    (l.set i b).countP f + (if f a then 1 else 0) = l.countP f + (if f b then 1 else 0) := by
  induction l generalizing i with
  | nil => simp at h
  | cons x xs ih =>
      cases i with
      | zero =>
          simp only [List.getElem?_cons_zero, Option.some.injEq] at h
          subst h
          simp only [List.set_cons_zero, List.countP_cons]
          omega
      | succ k =>
          simp only [List.getElem?_cons_succ] at h
          have := ih k h
          simp only [List.set_cons_succ, List.countP_cons]
          omega

theorem running_le_holders (s : Sched) : s.running ≤ s.holders := by
  unfold Sched.running Sched.holders List.count
  apply List.countP_mono_left
  intro p _ hp
  have : p = Phase.running := by simpa using hp
  subst this
  rfl

theorem step_gate_holders (cap : Nat) (s s1 : Sched) (m : Move)
    (hinv : s.gate = s.holders ∧ s.gate ≤ cap) (hstep : Sched.step cap s m = some s1) :
    s1.gate = s1.holders ∧ s1.gate ≤ cap := by
  obtain ⟨hg, hc⟩ := hinv
  unfold Sched.holders at hg ⊢
  cases m with
  | acquire i =>
      simp only [Sched.step, List.get?_eq_getElem?] at hstep
      split at hstep
      · rename_i h
        cases hstep
        have := countP_set_of_getElem? Phase.holding s.tasks i _ Phase.running h.1
        simp [Phase.holding] at this ⊢
        omega
      · cases hstep
  | finish i =>
      simp only [Sched.step, List.get?_eq_getElem?] at hstep
      split at hstep
      · rename_i h
        cases hstep
        have := countP_set_of_getElem? Phase.holding s.tasks i _ Phase.forwarding h
        simp [Phase.holding] at this ⊢
        omega
      · cases hstep
  | forward i =>
      simp only [Sched.step, List.get?_eq_getElem?] at hstep
      split at hstep
      · rename_i h
        cases hstep
        have := countP_set_of_getElem? Phase.holding s.tasks i _ Phase.releasing h
        simp [Phase.holding] at this ⊢
        omega
      · cases hstep
  | release i =>
      simp only [Sched.step, List.get?_eq_getElem?] at hstep
      split at hstep
      · rename_i h
        cases hstep
        have := countP_set_of_getElem? Phase.holding s.tasks i _ Phase.done h.1
        simp [Phase.holding] at this ⊢
        omega
      · cases hstep
  | handoff i j =>
      simp only [Sched.step, List.get?_eq_getElem?] at hstep
      split at hstep
      · rename_i h
        cases hstep
        have hij : i ≠ j := by
          rintro rfl
          rw [h.1] at h
          exact absurd h.2 (by decide)
        have h1 := countP_set_of_getElem? Phase.holding s.tasks i _ Phase.running h.1
        have hj : (s.tasks.set i Phase.running)[j]? = some Phase.releasing := by
          rw [List.getElem?_set_ne hij]
          exact h.2
        have h2 := countP_set_of_getElem? Phase.holding (s.tasks.set i Phase.running) j _
          Phase.done hj
        simp [Phase.holding] at h1 h2 ⊢
        omega
      · cases hstep

theorem exec_gate_holders (cap : Nat) (ms : List Move) (s s1 : Sched)
    (hinv : s.gate = s.holders ∧ s.gate ≤ cap) (hexec : Sched.exec cap s ms = some s1) :
    s1.gate = s1.holders ∧ s1.gate ≤ cap := by
  induction ms generalizing s with
  | nil =>
      simp only [Sched.exec, Option.some.injEq] at hexec
      subst hexec
      exact hinv
  | cons m rest ih =>
      simp only [Sched.exec] at hexec
      cases hm : Sched.step cap s m with
      | none => simp [hm] at hexec
      | some s2 =>
          rw [hm] at hexec
          exact ih s2 (step_gate_holders cap s s2 m hinv hm) hexec

theorem init_gate_holders (cap n : Nat) :
    (Sched.init n).gate = (Sched.init n).holders ∧ (Sched.init n).gate ≤ cap := by
  constructor
  · simp [Sched.init, Sched.holders, List.countP_replicate, Phase.holding]
  · simp [Sched.init]

/-- C9. Whatever the flag value and whatever the interleaving of the suite
tasks (every sequence of enabled moves from the start state), the number of
suites inside `runTestSuite` is at most the parallelism `Process` was given
(the flag value itself when it is not negative), and so is the number of tasks
holding a slot of the gate. -/
theorem running_le_parallel (parallel : Int) (n : Nat) (ms : List Move) (s : Sched)
    (hexec : Sched.exec (cmdParallel parallel).toNat (Sched.init n) ms = some s) :
    (s.running : Int) ≤ cmdParallel parallel ∧
    (0 ≤ parallel → (s.running : Int) ≤ parallel) ∧
    s.holders ≤ (cmdParallel parallel).toNat ∧ s.gate = s.holders := by
  have h := exec_gate_holders _ ms _ s (init_gate_holders _ n) hexec
  have hr := running_le_holders s
  have hnn : 0 ≤ cmdParallel parallel := by
    unfold cmdParallel
    split <;> omega
  refine ⟨by omega, ?_, by omega, h.1⟩
  intro hp
  have hc : cmdParallel parallel = parallel := by
    unfold cmdParallel
    split <;> omega
  omega

/-- C9 at `parallel = 2` with three suites: two are admitted, the third gets
its slot only through the release of the first, and two are running. -/
theorem running_le_parallel_witness :
    Sched.exec (cmdParallel 2).toNat (Sched.init 3)
        [Move.acquire 0, Move.acquire 1, Move.finish 0, Move.forward 0, Move.handoff 2 0]
      = some { gate := 2, tasks := [Phase.done, Phase.running, Phase.running] } ∧
    (((({ gate := 2, tasks := [Phase.done, Phase.running, Phase.running] } : Sched).running
        : Nat) : Int) ≤ cmdParallel 2) :=
  ⟨by decide,
   (running_le_parallel 2 3
      [Move.acquire 0, Move.acquire 1, Move.finish 0, Move.forward 0, Move.handoff 2 0]
      { gate := 2, tasks := [Phase.done, Phase.running, Phase.running] } (by decide)).1⟩


/-! ## The step loop -/

theorem runStep_unresolved {W : Type} (env : Env W) (lvl : String) (st : CaseRun W)
    (step : TestStep) (err : String) (h : env.getExecutor step = Sum.inl err) :
    runStep env lvl st step =
      ({ world := st.world,
         tc := { st.tc with Errors := st.tc.Errors ++ [{ Value := err }] },
         trace := st.trace ++ [Event.getExecutor step] }, true) := by
  simp [runStep, h]

theorem runStep_resolved {W : Type} (env : Env W) (lvl : String) (st : CaseRun W)
    (step : TestStep) (t : Executor W) (h : env.getExecutor step = Sum.inr t) :
    runStep env lvl st step =
      ({ world := (t.Run st.world st.tc.Name step).1,
         tc := { st.tc with
                 Failures := st.tc.Failures
                   ++ (match (t.Run st.world st.tc.Name step).2.2 with
                       | some e => [{ Value := e }]
                       | none => [])
                   ++ env.evaluate (t.Run st.world st.tc.Name step).2.1 step
                        t.GetDefaultAssertions },
         trace := st.trace ++
           [Event.getExecutor step, Event.run st.tc.Name step,
            Event.applyChecks st.tc.Name step] ++
           (if lvl ≠ DetailsLow then [Event.increment] else []) },
       decide ((st.tc.Failures
                   ++ (match (t.Run st.world st.tc.Name step).2.2 with
                       | some e => [({ Value := e } : Failure)]
                       | none => [])
                   ++ env.evaluate (t.Run st.world st.tc.Name step).2.1 step
                        t.GetDefaultAssertions).length > 0)) := by
  simp only [runStep, h, applyChecks]
  cases (t.Run st.world st.tc.Name step).2.2 <;> simp

/-- A step changes the case only by appending to its errors and failures. -/
theorem runStep_tc {W : Type} (env : Env W) (lvl : String) (st : CaseRun W)
    (step : TestStep) :
    ∃ es fs, (runStep env lvl st step).1.tc =
      { st.tc with Errors := st.tc.Errors ++ es, Failures := st.tc.Failures ++ fs } := by
  cases h : env.getExecutor step with
  | inl err =>
      rw [runStep_unresolved env lvl st step err h]
      exact ⟨[{ Value := err }], [], by simp⟩
  | inr t =>
      rw [runStep_resolved env lvl st step t h]
      exact ⟨[], _, by simp [List.append_assoc]; rfl⟩

theorem runSteps_tc {W : Type} (env : Env W) (lvl : String) (steps : List TestStep)
    (st : CaseRun W) :
    ∃ es fs, (runSteps env lvl steps st).tc =
      { st.tc with Errors := st.tc.Errors ++ es, Failures := st.tc.Failures ++ fs } := by
  induction steps generalizing st with
  | nil => exact ⟨[], [], by simp [runSteps]⟩
  | cons step rest ih =>
      obtain ⟨es, fs, h1⟩ := runStep_tc env lvl st step
      simp only [runSteps]
      split
      · exact ⟨es, fs, h1⟩
      · obtain ⟨es2, fs2, h2⟩ := ih (runStep env lvl st step).1
        refine ⟨es ++ es2, fs ++ fs2, ?_⟩
        rw [h2, h1]
        simp [List.append_assoc]

theorem runSteps_append {W : Type} (env : Env W) (lvl : String) (xs ys : List TestStep)
    (st : CaseRun W) :
    runSteps env lvl (xs ++ ys) st =
      if breaks env lvl xs st then runSteps env lvl xs st
      else runSteps env lvl ys (runSteps env lvl xs st) := by
  induction xs generalizing st with
  | nil => simp [runSteps, breaks]
  | cons x rest ih =>
      simp only [List.cons_append, runSteps, breaks]
      split
      · simp
      · exact ih _

theorem stepFails_break {W : Type} (env : Env W) (lvl : String) (st : CaseRun W)
    (step : TestStep) (h : stepFails env st step = true) :
    (runStep env lvl st step).2 = true := by
  cases hx : env.getExecutor step with
  | inl err => rw [runStep_unresolved env lvl st step err hx]
  | inr t =>
      rw [runStep_resolved env lvl st step t hx]
      simp only [stepFails, hx, Bool.or_eq_true] at h
      simp only [decide_eq_true_eq, List.length_append]
      rcases h with h | h
      · cases hr : (t.Run st.world st.tc.Name step).2.2 with
        | none => simp [hr] at h
        | some e => simp
      · have : (env.evaluate (t.Run st.world st.tc.Name step).2.1 step
            t.GetDefaultAssertions).length ≠ 0 := by
          intro h0
          simp [List.length_eq_zero.mp h0] at h
        omega

theorem TestCase.with_failures_nil (tc : TestCase) (h : tc.Failures = []) :
    { tc with Failures := [] } = tc := by
  cases tc
  simp only at h
  subst h
  rfl

/-- A step that does not break leaves the case as it was. -/
theorem runStep_tc_of_not_break {W : Type} (env : Env W) (lvl : String) (st : CaseRun W)
    (step : TestStep) (h : (runStep env lvl st step).2 = false) :
    (runStep env lvl st step).1.tc = st.tc ∧ st.tc.Failures = [] := by
  cases hx : env.getExecutor step with
  | inl err =>
      rw [runStep_unresolved env lvl st step err hx] at h
      simp at h
  | inr t =>
      rw [runStep_resolved env lvl st step t hx] at h ⊢
      simp only [decide_eq_false_iff_not, gt_iff_lt, not_lt, Nat.le_zero_eq,
        List.length_eq_zero] at h
      simp only []
      rw [h]
      simp only [List.append_eq_nil, List.append_assoc] at h
      exact ⟨TestCase.with_failures_nil _ h.1, h.1⟩

/-- While the loop has not broken, the case is as it was on entry. -/
theorem runSteps_tc_of_not_breaks {W : Type} (env : Env W) (lvl : String)
    (steps : List TestStep) (st : CaseRun W) (h : breaks env lvl steps st = false) :
    (runSteps env lvl steps st).tc = st.tc := by
  induction steps generalizing st with
  | nil => simp [runSteps]
  | cons step rest ih =>
      simp only [breaks] at h
      simp only [runSteps]
      split at h
      · cases h
      · rename_i hb
        rw [if_neg hb, ih _ h]
        exact (runStep_tc_of_not_break env lvl st step (by simpa using hb)).1

/-- A loop that got past a first step started from a case without failures. -/
theorem failures_nil_of_not_breaks {W : Type} (env : Env W) (lvl : String)
    (steps : List TestStep) (st : CaseRun W) (hne : steps ≠ [])
    (h : breaks env lvl steps st = false) : st.tc.Failures = [] := by
  cases steps with
  | nil => exact absurd rfl hne
  | cons step rest =>
      simp only [breaks] at h
      split at h
      · cases h
      · rename_i hb
        exact (runStep_tc_of_not_break env lvl st step (by simpa using hb)).2

/-- The events a run of the step loop appends, with at most one call of each
kind per step. -/
theorem runSteps_trace {W : Type} (env : Env W) (lvl : String) (steps : List TestStep)
    (st : CaseRun W) :
    ∃ evs, (runSteps env lvl steps st).trace = st.trace ++ evs ∧
      evs.countP Event.isGetExecutor ≤ steps.length ∧
      evs.countP Event.isRun ≤ steps.length ∧
      evs.countP Event.isApplyChecks ≤ steps.length := by
  induction steps generalizing st with
  | nil => exact ⟨[], by simp [runSteps]⟩
  | cons step rest ih =>
      have h1 : ∃ evs, (runStep env lvl st step).1.trace = st.trace ++ evs ∧
          evs.countP Event.isGetExecutor ≤ 1 ∧ evs.countP Event.isRun ≤ 1 ∧
          evs.countP Event.isApplyChecks ≤ 1 := by
        cases hx : env.getExecutor step with
        | inl err =>
            rw [runStep_unresolved env lvl st step err hx]
            exact ⟨_, rfl, by simp [Event.isGetExecutor], by simp [Event.isRun],
              by simp [Event.isApplyChecks]⟩
        | inr t =>
            rw [runStep_resolved env lvl st step t hx]
            refine ⟨_, List.append_assoc _ _ _, ?_, ?_, ?_⟩ <;>
              by_cases hl : lvl = DetailsLow <;>
              simp [hl, List.countP_cons, Event.isGetExecutor, Event.isRun,
                Event.isApplyChecks]
      obtain ⟨evs, he, hc1, hc2, hc3⟩ := h1
      simp only [runSteps]
      split
      · exact ⟨evs, he, by simp; omega, by simp; omega, by simp; omega⟩
      · obtain ⟨evs2, he2, hd1, hd2, hd3⟩ := ih (runStep env lvl st step).1
        refine ⟨evs ++ evs2, ?_, ?_, ?_, ?_⟩
        · rw [he2, he, List.append_assoc]
        · simp only [List.countP_append, List.length_cons]; omega
        · simp only [List.countP_append, List.length_cons]; omega
        · simp only [List.countP_append, List.length_cons]; omega

theorem runStep_setSteps {W : Type} (env : Env W) (lvl : String) (st : CaseRun W)
    (step : TestStep) (l : List TestStep) :
    runStep env lvl { st with tc := { st.tc with TestSteps := l } } step =
      ({ (runStep env lvl st step).1 with
           tc := { (runStep env lvl st step).1.tc with TestSteps := l } },
       (runStep env lvl st step).2) := by
  cases hx : env.getExecutor step with
  | inl err =>
      rw [runStep_unresolved env lvl _ step err hx, runStep_unresolved env lvl st step err hx]
  | inr t =>
      rw [runStep_resolved env lvl _ step t hx, runStep_resolved env lvl st step t hx]

theorem runSteps_setSteps {W : Type} (env : Env W) (lvl : String) (steps : List TestStep)
    (st : CaseRun W) (l : List TestStep) :
    runSteps env lvl steps { st with tc := { st.tc with TestSteps := l } } =
      { (runSteps env lvl steps st) with
          tc := { (runSteps env lvl steps st).tc with TestSteps := l } } := by
  induction steps generalizing st with
  | nil => simp [runSteps]
  | cons step rest ih =>
      simp only [runSteps, runStep_setSteps]
      split
      · rfl
      · exact ih _

theorem breaks_append {W : Type} (env : Env W) (lvl : String) (xs ys : List TestStep)
    (st : CaseRun W) :
    breaks env lvl (xs ++ ys) st =
      (breaks env lvl xs st || breaks env lvl ys (runSteps env lvl xs st)) := by
  induction xs generalizing st with
  | nil => simp [runSteps, breaks]
  | cons x rest ih =>
      simp only [List.cons_append, runSteps, breaks]
      split
      · simp
      · exact ih _

/-- A failing step at the end of `xs` makes the loop ignore what follows. -/
theorem runSteps_cut {W : Type} (env : Env W) (lvl : String) (xs : List TestStep)
    (s : TestStep) (ys : List TestStep) (st : CaseRun W)
    (hfail : breaks env lvl xs st = false →
      stepFails env (runSteps env lvl xs st) s = true) :
    runSteps env lvl (xs ++ s :: ys) st = runSteps env lvl (xs ++ [s]) st := by
  have hb : breaks env lvl (xs ++ [s]) st = true := by
    rw [breaks_append]
    cases hx : breaks env lvl xs st with
    | true => rfl
    | false =>
        have := stepFails_break env lvl _ s (hfail hx)
        simp [breaks, this]
  have : xs ++ s :: ys = (xs ++ [s]) ++ ys := by simp
  rw [this, runSteps_append, if_pos hb]

/-- C2. When step `i` of a case fails once it is reached (unresolved executor,
run error, or unmet assertion), `runTestCase` is the loop over steps `0..i`
only: the outcome (world, trace, errors, failures) is the same whatever steps
follow position `i`, and the call makes at most `i + 1` calls of each kind
(`getExecutor`, `Run`, `applyChecks`). -/
theorem short_circuit {W : Type} (env : Env W) (lvl : String) (w : W) (tc : TestCase)
    (pre : List TestStep) (s : TestStep) (post : List TestStep)
    (hsteps : tc.TestSteps = pre ++ s :: post)
    (hfail : breaks env lvl pre { world := w, tc := tc, trace := [] } = false →
      stepFails env (runSteps env lvl pre { world := w, tc := tc, trace := [] }) s = true) :
    runTestCase env lvl w tc
      = runSteps env lvl (pre ++ [s]) { world := w, tc := tc, trace := [] } ∧
    (∀ post2 : List TestStep,
      (runTestCase env lvl w { tc with TestSteps := pre ++ s :: post2 }).world
        = (runTestCase env lvl w tc).world ∧
      (runTestCase env lvl w { tc with TestSteps := pre ++ s :: post2 }).trace
        = (runTestCase env lvl w tc).trace ∧
      (runTestCase env lvl w { tc with TestSteps := pre ++ s :: post2 }).tc.Errors
        = (runTestCase env lvl w tc).tc.Errors ∧
      (runTestCase env lvl w { tc with TestSteps := pre ++ s :: post2 }).tc.Failures
        = (runTestCase env lvl w tc).tc.Failures) ∧
    (runTestCase env lvl w tc).trace.countP Event.isGetExecutor ≤ pre.length + 1 ∧
    (runTestCase env lvl w tc).trace.countP Event.isRun ≤ pre.length + 1 ∧
    (runTestCase env lvl w tc).trace.countP Event.isApplyChecks ≤ pre.length + 1 := by
  have hcut : runTestCase env lvl w tc
      = runSteps env lvl (pre ++ [s]) { world := w, tc := tc, trace := [] } := by
    unfold runTestCase
    rw [hsteps]
    exact runSteps_cut env lvl pre s post _ hfail
  refine ⟨hcut, ?_, ?_⟩
  · intro post2
    have h2 : runTestCase env lvl w { tc with TestSteps := pre ++ s :: post2 }
        = { (runSteps env lvl (pre ++ [s]) { world := w, tc := tc, trace := [] }) with
            tc := { (runSteps env lvl (pre ++ [s])
                      { world := w, tc := tc, trace := [] }).tc with
                    TestSteps := pre ++ s :: post2 } } := by
      unfold runTestCase
      have := runSteps_setSteps env lvl (pre ++ s :: post2)
        { world := w, tc := tc, trace := [] } (pre ++ s :: post2)
      simp only at this
      rw [this, runSteps_cut env lvl pre s post2 _ hfail]
    rw [h2, hcut]
    exact ⟨rfl, rfl, rfl, rfl⟩
  · obtain ⟨evs, he, h1, h2, h3⟩ :=
      runSteps_trace env lvl (pre ++ [s]) { world := w, tc := tc, trace := [] }
    rw [hcut, he]
    simp only [List.length_append, List.length_singleton] at h1 h2 h3
    simpa using ⟨h1, h2, h3⟩

/-- C2 on scenario B: the run of the second step fails, so the third step is
never reached. -/
theorem short_circuit_witness :
    betaCase.TestSteps = [okStep] ++ failStep :: [okStep] ∧
    stepFails demoEnv
      (runSteps demoEnv DetailsLow [okStep] { world := 0, tc := betaCase, trace := [] })
      failStep = true ∧
    (runTestCase demoEnv DetailsLow 0 betaCase).trace.countP Event.isRun
      ≤ [okStep].length + 1 :=
  ⟨rfl, by decide,
   (short_circuit demoEnv DetailsLow 0 betaCase [okStep] failStep [okStep] rfl
      (fun _ => by decide)).2.2.2.1⟩

/-! ## The case loop -/

theorem runCase_of_skipped {W : Type} (env : Env W) (lvl : String) (st : SuiteRun W)
    (c : TestCase) (h : c.Skipped ≠ 0) :
    runCase env lvl st c =
      { world := st.world
        trace := st.trace
        Failures := if c.Failures.length > 0 then st.Failures + c.Failures.length
                    else st.Failures
        Errors := if c.Errors.length > 0 then st.Errors + c.Errors.length else st.Errors
        Skipped := if c.Skipped > 0 then wrapInt (st.Skipped + c.Skipped) else st.Skipped
        cases := st.cases ++ [c] } := by
  simp [runCase, h]

theorem runCase_of_run {W : Type} (env : Env W) (lvl : String) (st : SuiteRun W)
    (c : TestCase) (h : c.Skipped = 0) :
    runCase env lvl st c =
      { world := (runTestCase env lvl st.world c).world
        trace := st.trace ++ (runTestCase env lvl st.world c).trace
        Failures :=
          if (runTestCase env lvl st.world c).tc.Failures.length > 0
          then st.Failures + (runTestCase env lvl st.world c).tc.Failures.length
          else st.Failures
        Errors :=
          if (runTestCase env lvl st.world c).tc.Errors.length > 0
          then st.Errors + (runTestCase env lvl st.world c).tc.Errors.length
          else st.Errors
        Skipped :=
          if (runTestCase env lvl st.world c).tc.Skipped > 0
          then wrapInt (st.Skipped + (runTestCase env lvl st.world c).tc.Skipped)
          else st.Skipped
        cases := st.cases ++ [(runTestCase env lvl st.world c).tc] } := by
  simp [runCase, h]

theorem runCases_append {W : Type} (env : Env W) (lvl : String) (xs ys : List TestCase)
    (st : SuiteRun W) :
    runCases env lvl (xs ++ ys) st = runCases env lvl ys (runCases env lvl xs st) := by
  induction xs generalizing st with
  | nil => rfl
  | cons x rest ih => exact ih _

theorem runCase_cases {W : Type} (env : Env W) (lvl : String) (st : SuiteRun W)
    (c : TestCase) : ∃ c1, (runCase env lvl st c).cases = st.cases ++ [c1] := by
  exact ⟨_, rfl⟩

theorem runCases_cases {W : Type} (env : Env W) (lvl : String) (cs : List TestCase)
    (st : SuiteRun W) :
    ∃ l, (runCases env lvl cs st).cases = st.cases ++ l ∧ l.length = cs.length := by
  induction cs generalizing st with
  | nil => exact ⟨[], by simp [runCases]⟩
  | cons c rest ih =>
      obtain ⟨l, hl, hlen⟩ := ih (runCase env lvl st c)
      obtain ⟨c1, hc1⟩ := runCase_cases env lvl st c
      refine ⟨c1 :: l, ?_, by simp [hlen]⟩
      simp only [runCases]
      rw [hl, hc1]
      simp

theorem getExecutor_mem_runSteps {W : Type} (env : Env W) (lvl : String) (x : TestStep)
    (rest : List TestStep) (st : CaseRun W) :
    Event.getExecutor x ∈ (runSteps env lvl (x :: rest) st).trace := by
  have h1 : Event.getExecutor x ∈ (runStep env lvl st x).1.trace := by
    cases hx : env.getExecutor x with
    | inl err =>
        rw [runStep_unresolved env lvl st x err hx]
        simp
    | inr t =>
        rw [runStep_resolved env lvl st x t hx]
        simp
  simp only [runSteps]
  split
  · exact h1
  · obtain ⟨evs, he, _⟩ := runSteps_trace env lvl rest (runStep env lvl st x).1
    rw [he]
    exact List.mem_append_left _ h1

/-- The case loop only appends to the trace, and what it appends holds the
`getExecutor` call on the first step of every case that is not skipped. -/
theorem runCases_trace {W : Type} (env : Env W) (lvl : String) (cs : List TestCase)
    (st : SuiteRun W) :
    ∃ evs, (runCases env lvl cs st).trace = st.trace ++ evs ∧
      ∀ c ∈ cs, c.Skipped = 0 → ∀ x rest, c.TestSteps = x :: rest →
        Event.getExecutor x ∈ evs := by
  induction cs generalizing st with
  | nil => exact ⟨[], by simp [runCases]⟩
  | cons c rest ih =>
      obtain ⟨evs, he, hin⟩ := ih (runCase env lvl st c)
      by_cases hs : c.Skipped = 0
      · refine ⟨(runTestCase env lvl st.world c).trace ++ evs, ?_, ?_⟩
        · simp only [runCases]
          rw [he, runCase_of_run env lvl st c hs, List.append_assoc]
        · intro c2 hc2 hsk x r hx
          rcases List.mem_cons.mp hc2 with rfl | hmem
          · apply List.mem_append_left
            unfold runTestCase
            rw [hx]
            exact getExecutor_mem_runSteps env lvl x r _
          · exact List.mem_append_right _ (hin c2 hmem hsk x r hx)
      · refine ⟨evs, ?_, ?_⟩
        · simp only [runCases]
          rw [he, runCase_of_skipped env lvl st c hs]
        · intro c2 hc2 hsk x r hx
          rcases List.mem_cons.mp hc2 with rfl | hmem
          · exact absurd hsk hs
          · exact hin c2 hmem hsk x r hx

/-- What `runTestSuite` leaves for a suite whose cases are `cs1 ++ tc :: cs2`
when `tc` is not skipped: the loop goes on over `cs2` after `tc`. -/
theorem runTestSuite_split {W : Type} (env : Env W) (lvl : String) (w0 : W)
    (ts : TestSuite) (cs1 : List TestCase) (tc : TestCase) (cs2 : List TestCase)
    (hcases : ts.TestCases = cs1 ++ tc :: cs2) (hskip : tc.Skipped = 0) :
    (runTestSuite env lvl w0 ts).suite.TestCases.length = ts.TestCases.length ∧
    (runTestSuite env lvl w0 ts).suite.TestCases[cs1.length]?
      = some (runTestCase env lvl
          (runCases env lvl cs1 (suiteStart w0 ts)).world tc).tc ∧
    ∃ evs2,
      (runTestSuite env lvl w0 ts).trace
        = (runCases env lvl cs1 (suiteStart w0 ts)).trace
          ++ (runTestCase env lvl (runCases env lvl cs1 (suiteStart w0 ts)).world tc).trace
          ++ evs2 ∧
      ∀ c2 ∈ cs2, c2.Skipped = 0 → ∀ x rest, c2.TestSteps = x :: rest →
        Event.getExecutor x ∈ evs2 := by
  refine ⟨?_, ?_, ?_⟩
  · simp [runTestSuite, runCases_cases_length, suiteStart]
  · simp only [runTestSuite, hcases, runCases_append, runCases]
    obtain ⟨l1, hl1, hlen1⟩ := runCases_cases env lvl cs1 (suiteStart w0 ts)
    obtain ⟨l2, hl2, _⟩ := runCases_cases env lvl cs2
      (runCase env lvl (runCases env lvl cs1 (suiteStart w0 ts)) tc)
    have hl1b : (runCases env lvl cs1 (suiteStart w0 ts)).cases = l1 := by
      simpa [suiteStart] using hl1
    rw [hl2, runCase_of_run env lvl _ tc hskip]
    simp only [hl1b, List.append_assoc]
    rw [← hlen1, List.getElem?_append_right (le_refl _)]
    simp
  · simp only [runTestSuite, hcases, runCases_append, runCases]
    obtain ⟨evs2, he2, hin⟩ := runCases_trace env lvl cs2
      (runCase env lvl (runCases env lvl cs1 (suiteStart w0 ts)) tc)
    refine ⟨evs2, ?_, hin⟩
    rw [he2, runCase_of_run env lvl _ tc hskip]

/-- C4. When a step that is reached names an executor that is not registered,
`runTestCase` ends there: the case gets exactly one more error, with the text
of the resolution error, its failures are untouched, and the only call made
for the step is `getExecutor` (no `Run`, no `applyChecks`). Inside a suite the
case loop goes on: the errored case is written back at its position, the suite
keeps all its cases, and every later case that is not skipped has its first
step resolved after the errored case. -/
theorem unresolved_executor {W : Type} (env : Env W) (lvl : String) (w : W)
    (tc : TestCase) (pre : List TestStep) (s : TestStep) (post : List TestStep)
    (err : String)
    (hsteps : tc.TestSteps = pre ++ s :: post)
    (hreach : breaks env lvl pre { world := w, tc := tc, trace := [] } = false)
    (hres : env.getExecutor s = Sum.inl err) :
    runTestCase env lvl w tc =
      { world := (runSteps env lvl pre { world := w, tc := tc, trace := [] }).world
        tc := { tc with Errors := tc.Errors ++ [{ Value := err }] }
        trace := (runSteps env lvl pre { world := w, tc := tc, trace := [] }).trace
                  ++ [Event.getExecutor s] } ∧
    (runTestCase env lvl w tc).tc.Errors.length = tc.Errors.length + 1 ∧
    (runTestCase env lvl w tc).tc.Failures = tc.Failures ∧
    ∀ (w0 : W) (ts : TestSuite) (cs1 cs2 : List TestCase),
      ts.TestCases = cs1 ++ tc :: cs2 → tc.Skipped = 0 →
      (runCases env lvl cs1 (suiteStart w0 ts)).world = w →
      (runTestSuite env lvl w0 ts).suite.TestCases.length = ts.TestCases.length ∧
      (runTestSuite env lvl w0 ts).suite.TestCases[cs1.length]?
        = some { tc with Errors := tc.Errors ++ [{ Value := err }] } ∧
      ∃ evs2,
        (runTestSuite env lvl w0 ts).trace
          = (runCases env lvl cs1 (suiteStart w0 ts)).trace
            ++ (runTestCase env lvl w tc).trace ++ evs2 ∧
        ∀ c2 ∈ cs2, c2.Skipped = 0 → ∀ x rest, c2.TestSteps = x :: rest →
          Event.getExecutor x ∈ evs2 := by
  have hcase : runTestCase env lvl w tc =
      { world := (runSteps env lvl pre { world := w, tc := tc, trace := [] }).world
        tc := { tc with Errors := tc.Errors ++ [{ Value := err }] }
        trace := (runSteps env lvl pre { world := w, tc := tc, trace := [] }).trace
                  ++ [Event.getExecutor s] } := by
    unfold runTestCase
    have hb : breaks env lvl pre { world := w, tc := tc, trace := [] } ≠ true := by
      simp [hreach]
    rw [hsteps, runSteps_append, if_neg hb]
    simp only [runSteps]
    rw [runStep_unresolved env lvl _ s err hres]
    simp only [if_true]
    rw [runSteps_tc_of_not_breaks env lvl pre _ hreach]
    simp [hsteps]
  refine ⟨hcase, ?_, ?_, ?_⟩
  · rw [hcase]
    simp
  · rw [hcase]
  · intro w0 ts cs1 cs2 hcases hskip hw
    have h := runTestSuite_split env lvl w0 ts cs1 tc cs2 hcases hskip
    rw [hw] at h
    rw [hcase] at h ⊢
    exact h

/-- C4 under `demoEnv`: the second step of the first case names `ftp`; the
case stops with one error and the second case of the suite still runs. -/
theorem unresolved_executor_witness :
    ({ Name := "e1", TestSteps := [okStep, unknownStep, okStep] } : TestCase).TestSteps
      = [okStep] ++ unknownStep :: [okStep] ∧
    breaks demoEnv DetailsLow [okStep]
      { world := 0, tc := { Name := "e1", TestSteps := [okStep, unknownStep, okStep] },
        trace := [] } = false ∧
    (runTestCase demoEnv DetailsLow 0
        { Name := "e1", TestSteps := [okStep, unknownStep, okStep] }).tc.Errors.length
      = ({ Name := "e1", TestSteps := [okStep, unknownStep, okStep] } : TestCase).Errors.length
        + 1 :=
  ⟨rfl, by decide,
   (unresolved_executor demoEnv DetailsLow 0
      { Name := "e1", TestSteps := [okStep, unknownStep, okStep] }
      [okStep] unknownStep [okStep] "executor not registered" rfl (by decide) rfl).2.1⟩

/-- C3, as amended. When a step that is reached resolves and its run returns
an error, `runTestCase` ends there: the case gets one failure with the error
text, then whatever the evaluator reports on that result, and no error; the
calls made for the step are `getExecutor`, `Run` and `applyChecks`, once each.
When the evaluator reports nothing, the case ends with one failure more than
it had on entry, which is exactly 1 when the step is not the first one or the
case was entered without failures; and a loaded suite made of that single case
ends with `failures` equal to that number. -/
theorem run_error_failure {W : Type} (env : Env W) (lvl : String) (w : W)
    (tc : TestCase) (pre : List TestStep) (s : TestStep) (post : List TestStep)
    (t : Executor W) (w2 : W) (r : ExecutorResult) (e : String)
    (hsteps : tc.TestSteps = pre ++ s :: post)
    (hreach : breaks env lvl pre { world := w, tc := tc, trace := [] } = false)
    (hres : env.getExecutor s = Sum.inr t)
    (hrun : t.Run (runSteps env lvl pre { world := w, tc := tc, trace := [] }).world
              tc.Name s = (w2, r, some e)) :
    runTestCase env lvl w tc =
      { world := w2
        tc := { tc with
                Failures := tc.Failures ++ [{ Value := e }]
                  ++ env.evaluate r s t.GetDefaultAssertions }
        trace := (runSteps env lvl pre { world := w, tc := tc, trace := [] }).trace
                  ++ [Event.getExecutor s, Event.run tc.Name s, Event.applyChecks tc.Name s]
                  ++ (if lvl ≠ DetailsLow then [Event.increment] else []) } ∧
    (runTestCase env lvl w tc).tc.Errors = tc.Errors ∧
    (env.evaluate r s t.GetDefaultAssertions = [] →
      (runTestCase env lvl w tc).tc.Failures = tc.Failures ++ [{ Value := e }] ∧
      (runTestCase env lvl w tc).tc.Failures.length = tc.Failures.length + 1 ∧
      (pre ≠ [] ∨ tc.Failures = [] →
        (runTestCase env lvl w tc).tc.Failures.length = 1) ∧
      ∀ (f : String) (doc : SuiteDoc), doc.TestCases = [tc] → tc.Skipped = 0 →
        (runTestSuite env lvl w (loadSuite f doc)).suite.Failures
          = (tc.Failures.length : Int) + 1) := by
  have hcase : runTestCase env lvl w tc =
      { world := w2
        tc := { tc with
                Failures := tc.Failures ++ [{ Value := e }]
                  ++ env.evaluate r s t.GetDefaultAssertions }
        trace := (runSteps env lvl pre { world := w, tc := tc, trace := [] }).trace
                  ++ [Event.getExecutor s, Event.run tc.Name s, Event.applyChecks tc.Name s]
                  ++ (if lvl ≠ DetailsLow then [Event.increment] else []) } := by
    unfold runTestCase
    have hb : breaks env lvl pre { world := w, tc := tc, trace := [] } ≠ true := by
      simp [hreach]
    have htc := runSteps_tc_of_not_breaks env lvl pre _ hreach
    simp only at htc
    rw [hsteps, runSteps_append, if_neg hb]
    simp only [runSteps]
    rw [runStep_resolved env lvl _ s t hres, htc, hrun]
    simp [hsteps]
  refine ⟨hcase, by rw [hcase], ?_⟩
  intro hev
  have hF : (runTestCase env lvl w tc).tc.Failures = tc.Failures ++ [{ Value := e }] := by
    rw [hcase]
    simp [hev]
  refine ⟨hF, by rw [hF]; simp, ?_, ?_⟩
  · intro h
    have hnil : tc.Failures = [] := by
      rcases h with h | h
      · exact failures_nil_of_not_breaks env lvl pre _ h hreach
      · exact h
    rw [hF, hnil]
    rfl
  · intro f doc hdoc hskip
    simp only [runTestSuite, loadSuite, hdoc, runCases, suiteStart]
    rw [runCase_of_run env lvl _ tc hskip]
    simp only [hF]
    simp

/-- C3 on scenario B: the run of the second step of `betaCase` fails; the case
ends with exactly one failure and suite beta with `failures == 1`. -/
theorem run_error_failure_witness :
    betaCase.TestSteps = [okStep] ++ failStep :: [okStep] ∧
    breaks demoEnv DetailsLow [okStep] { world := 0, tc := betaCase, trace := [] } = false ∧
    demoExec.Run
        (runSteps demoEnv DetailsLow [okStep] { world := 0, tc := betaCase, trace := [] }).world
        betaCase.Name failStep = (2, [("code", "0")], some "exit status 1") ∧
    (runTestCase demoEnv DetailsLow 0 betaCase).tc.Failures.length = 1 ∧
    (runTestSuite demoEnv DetailsLow 0 (loadSuite "beta.yml" betaDoc)).suite.Failures
      = (betaCase.Failures.length : Int) + 1 :=
  ⟨rfl, by decide, by decide,
   ((run_error_failure demoEnv DetailsLow 0 betaCase [okStep] failStep [okStep] demoExec 2
      [("code", "0")] "exit status 1" rfl (by decide) rfl (by decide)).2.2 rfl).2.2.1
      (Or.inl (by decide)),
   ((run_error_failure demoEnv DetailsLow 0 betaCase [okStep] failStep [okStep] demoExec 2
      [("code", "0")] "exit status 1" rfl (by decide) rfl (by decide)).2.2 rfl).2.2.2
      "beta.yml" betaDoc rfl rfl⟩

/-- C3 as stated fails on `declaredCase`, whose document already records one
failure: its only step resolves, its run returns an error and the evaluator
reports nothing, yet the case ends with 2 failures and the suite made of that
single case with `failures == 2`. -/
theorem run_error_not_exactly_one :
    (demoEnv.getExecutor failStep).isRight = true ∧
    (demoExec.Run 0 declaredCase.Name failStep).2.2 = some "exit status 1" ∧
    demoEnv.evaluate (demoExec.Run 0 declaredCase.Name failStep).2.1 failStep
      demoExec.GetDefaultAssertions = [] ∧
    (runTestCase demoEnv DetailsLow 0 declaredCase).tc.Failures.length = 2 ∧
    (runTestCase demoEnv DetailsLow 0 declaredCase).tc.Failures.length ≠ 1 ∧
    (runTestSuite demoEnv DetailsLow 0
      (loadSuite "d.yml" { Name := "declared", TestCases := [declaredCase] })).suite.Failures
      = 2 ∧
    (runTestSuite demoEnv DetailsLow 0
      (loadSuite "d.yml" { Name := "declared", TestCases := [declaredCase] })).suite.Failures
      ≠ 1 := by
  decide

/-- C5. For a document with one case marked `skipped: 1`, whatever the
executors: loading counts the skip (`Skipped == 1`), and `runTestSuite`,
which dispatches no step and leaves the case as it was, counts it a second
time (`Skipped == 2`) where one skipped case was declared. -/
theorem skipped_counted_twice {W : Type} (env : Env W) (lvl : String) (w : W) :
    (loadSuite "skip.yml" skippedDoc).Skipped = 1 ∧
    (runTestSuite env lvl w (loadSuite "skip.yml" skippedDoc)).suite.Skipped = 2 ∧
    (runTestSuite env lvl w (loadSuite "skip.yml" skippedDoc)).suite.Skipped
      ≠ ((skippedDoc.TestCases.filter fun c => c.Skipped = 1).length : Int) ∧
    (runTestSuite env lvl w (loadSuite "skip.yml" skippedDoc)).trace = [] ∧
    (runTestSuite env lvl w (loadSuite "skip.yml" skippedDoc)).suite.TestCases
      = skippedDoc.TestCases ∧
    (runTestSuite env lvl w (loadSuite "skip.yml" skippedDoc)).world = w := by
  refine ⟨by decide, rfl, ?_, rfl, rfl, rfl⟩
  have h : (runTestSuite env lvl w (loadSuite "skip.yml" skippedDoc)).suite.Skipped = 2 := rfl
  rw [h]
  decide

/-! ## Errors and the aggregate -/

theorem runStep_unresolvedIn {W : Type} (env : Env W) (lvl : String) (st : CaseRun W)
    (step : TestStep) (h : unresolvedIn env (runStep env lvl st step).1.trace) :
    unresolvedIn env st.trace ∨ (runStep env lvl st step).1.tc.Errors ≠ [] := by
  cases hx : env.getExecutor step with
  | inl err =>
      right
      rw [runStep_unresolved env lvl st step err hx]
      simp
  | inr t =>
      left
      rw [runStep_resolved env lvl st step t hx] at h
      obtain ⟨x, err, hxe, hmem⟩ := h
      refine ⟨x, err, hxe, ?_⟩
      simp only [List.mem_append, List.mem_cons, Event.getExecutor.injEq,
        List.mem_singleton, reduceCtorEq, false_or, or_false, List.not_mem_nil] at hmem
      rcases hmem with (hmem | hmem) | hmem
      · exact hmem
      · subst hmem
        rw [hx] at hxe
        cases hxe
      · split at hmem <;> simp at hmem

theorem runSteps_unresolvedIn {W : Type} (env : Env W) (lvl : String)
    (steps : List TestStep) (st : CaseRun W)
    (h : unresolvedIn env (runSteps env lvl steps st).trace) :
    unresolvedIn env st.trace ∨ (runSteps env lvl steps st).tc.Errors ≠ [] := by
  induction steps generalizing st with
  | nil => exact Or.inl h
  | cons step rest ih =>
      simp only [runSteps] at h ⊢
      split
      · rename_i hb
        rw [if_pos hb] at h
        exact runStep_unresolvedIn env lvl st step h
      · rename_i hb
        rw [if_neg hb] at h
        rcases ih _ h with h1 | h1
        · rcases runStep_unresolvedIn env lvl st step h1 with h2 | h2
          · exact Or.inl h2
          · right
            obtain ⟨es, fs, he⟩ := runSteps_tc env lvl rest (runStep env lvl st step).1
            rw [he]
            simp only [ne_eq, List.append_eq_nil, not_and]
            intro h0
            exact absurd h0 h2
        · exact Or.inr h1

theorem runCase_errors_le {W : Type} (env : Env W) (lvl : String) (st : SuiteRun W)
    (c : TestCase) : st.Errors ≤ (runCase env lvl st c).Errors := by
  simp only [runCase]
  split <;> omega

theorem runCases_errors_le {W : Type} (env : Env W) (lvl : String) (cs : List TestCase)
    (st : SuiteRun W) : st.Errors ≤ (runCases env lvl cs st).Errors := by
  induction cs generalizing st with
  | nil => exact le_refl _
  | cons c rest ih =>
      exact le_trans (runCase_errors_le env lvl st c) (ih _)

theorem runCase_unresolvedIn {W : Type} (env : Env W) (lvl : String) (st : SuiteRun W)
    (c : TestCase) (h : unresolvedIn env (runCase env lvl st c).trace) :
    unresolvedIn env st.trace ∨ st.Errors < (runCase env lvl st c).Errors := by
  by_cases hs : c.Skipped = 0
  · rw [runCase_of_run env lvl st c hs] at h ⊢
    obtain ⟨x, err, hxe, hmem⟩ := h
    rcases List.mem_append.mp hmem with hmem | hmem
    · exact Or.inl ⟨x, err, hxe, hmem⟩
    · right
      have hu : unresolvedIn env (runTestCase env lvl st.world c).trace :=
        ⟨x, err, hxe, hmem⟩
      rcases runSteps_unresolvedIn env lvl c.TestSteps _ hu with h1 | h1
      · obtain ⟨_, _, _, hm⟩ := h1
        simp at hm
      · have hpos : 0 < (runTestCase env lvl st.world c).tc.Errors.length :=
          List.length_pos.mpr h1
        simp only [gt_iff_lt, hpos, if_true]
        omega
  · rw [runCase_of_skipped env lvl st c hs] at h
    exact Or.inl h

theorem runCases_unresolvedIn {W : Type} (env : Env W) (lvl : String)
    (cs : List TestCase) (st : SuiteRun W)
    (h : unresolvedIn env (runCases env lvl cs st).trace) :
    unresolvedIn env st.trace ∨ st.Errors < (runCases env lvl cs st).Errors := by
  induction cs generalizing st with
  | nil => exact Or.inl h
  | cons c rest ih =>
      simp only [runCases] at h ⊢
      rcases ih _ h with h1 | h1
      · rcases runCase_unresolvedIn env lvl st c h1 with h2 | h2
        · exact Or.inl h2
        · exact Or.inr (lt_of_lt_of_le h2 (runCases_errors_le env lvl rest _))
      · exact Or.inr (lt_of_le_of_lt (runCase_errors_le env lvl st c) h1)

theorem runCase_failures {W : Type} (env : Env W) (lvl : String) (st : SuiteRun W)
    (c : TestCase) :
    ∃ c1, (runCase env lvl st c).cases = st.cases ++ [c1] ∧
      (runCase env lvl st c).Failures =
        if c1.Failures.length > 0 then st.Failures + c1.Failures.length else st.Failures :=
  ⟨_, rfl, rfl⟩

/-- When none of the cases written back by the loop has a failure, the
failure counter is where it started. -/
theorem runCases_failures_of_none {W : Type} (env : Env W) (lvl : String)
    (cs : List TestCase) (st : SuiteRun W) (l : List TestCase)
    (hl : (runCases env lvl cs st).cases = st.cases ++ l)
    (h : ∀ c ∈ l, c.Failures = []) :
    (runCases env lvl cs st).Failures = st.Failures := by
  induction cs generalizing st l with
  | nil => rfl
  | cons c rest ih =>
      simp only [runCases] at hl ⊢
      obtain ⟨l2, hl2, _⟩ := runCases_cases env lvl rest (runCase env lvl st c)
      obtain ⟨c1, hc1, hF⟩ := runCase_failures env lvl st c
      have hl3 : l = c1 :: l2 := by
        rw [hl2, hc1, List.append_assoc] at hl
        exact (List.append_cancel_left hl).symm
      subst hl3
      rw [ih (runCase env lvl st c) l2 hl2 (fun c hc => h c (List.mem_cons_of_mem _ hc)), hF]
      have : c1.Failures = [] := h c1 (List.mem_cons_self _ _)
      simp [this]

/-- C10. For a loaded suite in which some step was looked up without its
executor being registered, and in which no case ends with a failure,
`runTestSuite` leaves `failures == 0` and `errors >= 1`, and folding the suite
into any aggregate adds the number of its cases, the errored ones included, to
ok and nothing to ko. -/
theorem errored_counted_ok {W : Type} (env : Env W) (lvl : String) (w : W)
    (f : String) (doc : SuiteDoc) (a : Tests)
    (herr : unresolvedIn env (runTestSuite env lvl w (loadSuite f doc)).trace)
    (hnofail : ∀ c ∈ (runTestSuite env lvl w (loadSuite f doc)).suite.TestCases,
      c.Failures = []) :
    (runTestSuite env lvl w (loadSuite f doc)).suite.Failures = 0 ∧
    1 ≤ (runTestSuite env lvl w (loadSuite f doc)).suite.Errors ∧
    (aggregate a (runTestSuite env lvl w (loadSuite f doc)).suite).TotalOK
      = a.TotalOK + ((runTestSuite env lvl w (loadSuite f doc)).suite.TestCases.length : Int) ∧
    (aggregate a (runTestSuite env lvl w (loadSuite f doc)).suite).TotalKO = a.TotalKO ∧
    (runTestSuite env lvl w (loadSuite f doc)).suite.TestCases.length
      = doc.TestCases.length := by
  have hF : (runTestSuite env lvl w (loadSuite f doc)).suite.Failures = 0 := by
    simp only [runTestSuite] at hnofail ⊢
    have := runCases_failures_of_none env lvl (loadSuite f doc).TestCases
      (suiteStart w (loadSuite f doc)) _ (by simp [suiteStart]) hnofail
    rw [this]
    rfl
  have hE : 1 ≤ (runTestSuite env lvl w (loadSuite f doc)).suite.Errors := by
    simp only [runTestSuite] at herr ⊢
    rcases runCases_unresolvedIn env lvl _ _ herr with h1 | h1
    · obtain ⟨_, _, _, hm⟩ := h1
      simp [suiteStart] at hm
    · have h0 : (suiteStart w (loadSuite f doc)).Errors = 0 := rfl
      omega
  refine ⟨hF, hE, ?_, ?_, ?_⟩
  · simp [aggregate, hF]
  · simp [aggregate, hF]
  · simp [runTestSuite, runCases_cases_length, suiteStart, loadSuite]

/-- C10 on `erroredDoc` under `demoEnv`: the first case stops on the
unregistered `ftp` executor, no case has a failure, and both cases count as
ok. -/
theorem errored_counted_ok_witness :
    unresolvedIn demoEnv
      (runTestSuite demoEnv DetailsLow 0 (loadSuite "e.yml" erroredDoc)).trace ∧
    (∀ c ∈ (runTestSuite demoEnv DetailsLow 0 (loadSuite "e.yml" erroredDoc)).suite.TestCases,
      c.Failures = []) ∧
    (aggregate {} (runTestSuite demoEnv DetailsLow 0 (loadSuite "e.yml" erroredDoc)).suite).TotalOK
      = ({} : Tests).TotalOK
        + ((runTestSuite demoEnv DetailsLow 0
            (loadSuite "e.yml" erroredDoc)).suite.TestCases.length : Int) ∧
    (runTestSuite demoEnv DetailsLow 0 (loadSuite "e.yml" erroredDoc)).suite.Errors = 1 ∧
    (aggregate {} (runTestSuite demoEnv DetailsLow 0 (loadSuite "e.yml" erroredDoc)).suite).TotalOK
      = 2 :=
  ⟨⟨unknownStep, "executor not registered", rfl, by decide⟩, by decide,
   (errored_counted_ok demoEnv DetailsLow 0 "e.yml" erroredDoc {}
      ⟨unknownStep, "executor not registered", rfl, by decide⟩ (by decide)).2.2.1,
   by decide, by decide⟩

end Venom
